import Mathlib

/-!
# Verification of the tcp-delay-proxy byte-relay engine

Shallow embedding of the core relay logic of the `tcp-delay-proxy`
repository:

* `writeLoop` embeds the partial-write loop shared by
  `simplePipe.Run` (proxy package) and `delayedPipe.writeRoutine`
  (`pipe_delayed.go`): repeated `dst.Write` calls with a write cursor,
  treating `io.EOF` as a break, any other error as fatal, and
  non-positive reported byte counts as fatal transport violations.
* `simplePipeRun` embeds the outer read/write loop of `simplePipe.Run`.
* `readRoutineGo` / `writeRoutineGo` embed `delayedPipe.readRoutine`
  and `delayedPipe.writeRoutine` from `pipe_delayed.go`, including the
  `lastReadTime` ordering check.
* `sessionBuildPipes` / `sessionRunErr` embed the leg selection and
  error combination of `session.Run` (`proxy/pipe.go`).
* `acceptDelays` embeds the per-connection delay computation of
  `tcpDelayServer.Run` (`proxy/server.go`).

Connections are modelled as oracles: a source connection is a list of
read events (timeouts, data chunks, EOF, errors, observed context
cancellation), and a destination connection is a list of scripted
`Write`-call outcomes (an exhausted script behaves as a well-behaved
destination that accepts the whole buffer).  Bytes are `Nat`,
`time.Duration` is `Int` (nanoseconds), monotonic capture instants are
`Nat`.
-/

/-- A byte of the proxied stream. -/
abbrev Byte := Nat

/-- Errors returned by the Go code, as observed by the relay loops.
`ioError` stands for an arbitrary transport error distinguished by a
code; the remaining constructors are the errors the relay code itself
constructs. -/
inductive GoError where
  | ioError (code : Nat)
  | negativeBytes
  | zeroBytes
  | outOfOrder (readTime lastReadTime : Nat)
deriving DecidableEq, Repr

/-- Outcome of one `dst.Write` call, as scripted by the destination
oracle: a successful call reporting `n` bytes written, an `io.EOF`
error, or some other error with a code. -/
inductive WriteOutcome where
  | ok (n : Int)
  | eof
  | fail (code : Nat)
deriving DecidableEq, Repr

/-- How the partial-write loop over one chunk ended: write cursor
reached the chunk length, the destination reported `io.EOF` (the Go
code breaks out of the loop), or a fatal error. -/
inductive WriteRes where
  | completed
  | closedByDest
  | failed (e : GoError)
deriving DecidableEq, Repr

/-- Result of the partial-write loop: the bytes actually handed to the
destination, the unconsumed remainder of the destination oracle, and
how the loop ended. -/
structure WriteLoopOut where
  written : List Byte
  rest : List WriteOutcome
  res : WriteRes
deriving DecidableEq, Repr

/-- The partial-write loop shared verbatim by `simplePipe.Run` and
`delayedPipe.writeRoutine`:

    wc := 0
    for wc < len(bbuf) {
      n, err := p.dst.Write(bbuf[wc:])
      if err == io.EOF { break }
      else if err != nil { return err }
      if n < 0 { return errors.New("negative bytes ...") }
      else if n == 0 { return errors.New("zero bytes ...") }
      wc += n
    }

Each iteration consumes one entry of the destination oracle; an
exhausted oracle accepts the whole remaining buffer. -/
def writeLoop : List Byte → List WriteOutcome → WriteLoopOut
  | rem, [] => ⟨rem, [], .completed⟩
  | rem, o :: os =>
    if rem.isEmpty then ⟨[], o :: os, .completed⟩
    else
      match o with
      | .eof => ⟨[], os, .closedByDest⟩
      | .fail c => ⟨[], os, .failed (.ioError c)⟩
      | .ok n =>
        if n < 0 then ⟨[], os, .failed .negativeBytes⟩
        else if n = 0 then ⟨[], os, .failed .zeroBytes⟩
        else
          let r := writeLoop (rem.drop n.toNat) os
          ⟨rem.take n.toNat ++ r.written, r.rest, r.res⟩

/-- One iteration of a relay leg's read loop, as scripted by the source
connection and the cancellation signal: the context was observed
cancelled, `src.Read` hit the 100ms polling deadline, returned `nb`
bytes of data, returned `io.EOF`, or returned some other error. -/
inductive ReadEv where
  | cancelled
  | timeout
  | data (bs : List Byte)
  | eof
  | rerr (code : Nat)
deriving DecidableEq, Repr

/-- How a `simplePipe.Run` trace ended: returned `nil` after observing
context cancellation, returned `nil` after `io.EOF` from the source,
returned the source read error, returned a fatal write error, or the
scripted trace ran out while the loop was still running. -/
inductive RunExit where
  | ctxCancelled
  | srcClosed
  | readErr (code : Nat)
  | writeErr (e : GoError)
  | running
deriving DecidableEq, Repr

/-- The Go `error` value `simplePipe.Run` returns at each exit
(`none` = `nil`). A trace that has not exited yet maps to `none`. -/
def exitError : RunExit → Option GoError
  | .ctxCancelled => none
  | .srcClosed => none
  | .readErr c => some (.ioError c)
  | .writeErr e => some e
  | .running => none

/-- `simplePipe.Run` from the proxy package: the outer loop selects on
context cancellation, otherwise reads with a 100ms deadline; a timeout
continues the loop, `io.EOF` returns `nil`, another read error is
returned, and data runs the partial-write loop (`writeLoop`), whose
fatal errors are returned while `io.EOF` from the destination only
breaks the inner loop.  Returns the bytes delivered to the destination
and the exit. -/
def simplePipeRun : List ReadEv → List WriteOutcome → List Byte × RunExit
  | [], _ => ([], .running)
  | .cancelled :: _, _ => ([], .ctxCancelled)
  | .timeout :: evs, os => simplePipeRun evs os
  | .eof :: _, _ => ([], .srcClosed)
  | .rerr c :: _, _ => ([], .readErr c)
  | .data bs :: evs, os =>
    let w := writeLoop bs os
    match w.res with
    | .failed e => (w.written, .writeErr e)
    | _ =>
      let r := simplePipeRun evs w.rest
      (w.written ++ r.1, r.2)

/-- The data chunks a relay leg's read loop obtains from the scripted
source before its first terminating event. -/
def chunksBeforeExit : List ReadEv → List (List Byte)
  | [] => []
  | .cancelled :: _ => []
  | .timeout :: evs => chunksBeforeExit evs
  | .eof :: _ => []
  | .rerr _ :: _ => []
  | .data bs :: evs => bs :: chunksBeforeExit evs

/-- A single delayed write (`delayedWrite` in `pipe_delayed.go`):
the payload copied out of the read buffer, tagged with the
`time.Now()` capture instant of the read. -/
structure delayedWrite where
  readTime : Nat
  bbuf : List Byte
deriving DecidableEq, Repr

/-- Default `delayedWrite` used with `List.getD`. -/
def dwDefault : delayedWrite := ⟨0, []⟩

/-- One iteration of `delayedPipe.readRoutine`'s loop, as scripted by
the source connection; a successful read is tagged with the
`time.Now()` instant at which it was captured. -/
inductive DReadEv where
  | cancelled
  | timeout
  | data (readTime : Nat) (bs : List Byte)
  | eof
  | rerr (code : Nat)
deriving DecidableEq, Repr

/-- `delayedPipe.readRoutine` from `pipe_delayed.go`: the same
timeout-polling read loop as `simplePipe.Run` (timeout continues,
`io.EOF` and observed cancellation return `nil`, other errors are
returned), except each successfully read chunk is copied into a
`delayedWrite` stamped with its capture time and handed to a spawned
per-chunk scheduling goroutine.  Returns the spawned chunks in read
order together with the routine's Go error (`none` = `nil`). -/
def readRoutineGo : List DReadEv → List delayedWrite × Option GoError
  | [] => ([], none)
  | .cancelled :: _ => ([], none)
  | .timeout :: evs => readRoutineGo evs
  | .eof :: _ => ([], none)
  | .rerr c :: _ => ([], some (.ioError c))
  | .data t bs :: evs =>
    let r := readRoutineGo evs
    (⟨t, bs⟩ :: r.1, r.2)

/-- The channel contents produced by the per-chunk scheduling
goroutines of `readRoutine`.  The runtime's interleaving is adversarial:
a schedule lists, in channel-arrival order, the index of each spawned
chunk that reached the channel together with its enqueue instant.
`mkQueue` resolves the indices to chunks. -/
def mkQueue (spawned : List delayedWrite) (sched : List (Nat × Nat)) : List delayedWrite :=
  sched.map (fun p => spawned.getD p.1 dwDefault)

/-- Result of `delayedPipe.writeRoutine`: the chunks that passed the
`lastReadTime` ordering check (in delivery order), the bytes handed to
the destination, and the routine's Go error (`none` = the whole queue
was processed without a fatal error). -/
structure WROut where
  delivered : List delayedWrite
  written : List Byte
  err : Option GoError
deriving DecidableEq, Repr

/-- `delayedPipe.writeRoutine` from `pipe_delayed.go`: receives
`delayedWrite`s from the channel in arrival order; for each, if
`dw.readTime.Before(lastReadTime)` it returns the
"delayed write out of order" error immediately, otherwise it sets
`lastReadTime = dw.readTime` and runs the partial-write loop
(`writeLoop`), returning its fatal errors and treating destination
`io.EOF` as a break that abandons the rest of the chunk.  `last` is
the current `lastReadTime` (initially the zero `time.Time{}`,
modelled as `0`). -/
def writeRoutineGo (last : Nat) (os : List WriteOutcome) : List delayedWrite → WROut
  | [] => ⟨[], [], none⟩
  | dw :: rest =>
    if dw.readTime < last then ⟨[], [], some (.outOfOrder dw.readTime last)⟩
    else
      let w := writeLoop dw.bbuf os
      match w.res with
      | .failed e => ⟨[dw], w.written, some e⟩
      | _ =>
        let o := writeRoutineGo dw.readTime w.rest rest
        ⟨dw :: o.delivered, w.written ++ o.written, o.err⟩

/-- The two endpoints a session owns. -/
inductive ConnId where
  | client
  | upstream
deriving DecidableEq, Repr

/-- A relay leg as built by `session.Run`: either a `simplePipe` or a
`delayedPipe` with its fixed delay, each holding its source and
destination connections. -/
inductive Pipe where
  | simplePipe (src dst : ConnId)
  | delayedPipe (src dst : ConnId) (delay : Int)
deriving DecidableEq, Repr

/-- The leg-selection logic of `session.Run` (`proxy/pipe.go`):

    if c.upDelay.Nanoseconds() == 0 { upPipe = NewSimplePipe(clientConn, upstreamConn) }
    else { upPipe = NewDelayedPipe(clientConn, upstreamConn, c.upDelay) }
    if c.downDelay.Nanoseconds() == 0 { downPipe = NewSimplePipe(upstreamConn, clientConn) }
    else { downPipe = NewDelayedPipe(upstreamConn, clientConn, c.downDelay) }

Delays are `time.Duration`, i.e. `Int` nanoseconds. -/
def sessionBuildPipes (upDelay downDelay : Int) : Pipe × Pipe :=
  ((if upDelay = 0 then .simplePipe .client .upstream
    else .delayedPipe .client .upstream upDelay),
   (if downDelay = 0 then .simplePipe .upstream .client
    else .delayedPipe .upstream .client downDelay))

/-- Which leg goroutine of `session.Run` ran its error-recording
assignment last (the runtime's choice, adversarial). -/
inductive LegOrder where
  | upThenDown
  | downThenUp
deriving DecidableEq, Repr

/-- One execution of the `if err != nil { lastErr = err }` assignment
in a leg goroutine of `session.Run`. -/
def recordErr (lastErr e : Option GoError) : Option GoError :=
  match e with
  | some x => some x
  | none => lastErr

/-- The error `session.Run` returns: `lastErr` starts as `nil` and each
finishing leg overwrites it with its own error if that error is
non-nil; `Run` returns the final value after both legs finished, in the
order the runtime scheduled the two assignments. -/
def sessionRunErr : LegOrder → Option GoError → Option GoError → Option GoError
  | .upThenDown, errUp, errDown => recordErr (recordErr none errUp) errDown
  | .downThenUp, errUp, errDown => recordErr (recordErr none errDown) errUp

/-- The server configuration (`tcpDelayServer` in `proxy/server.go`). -/
structure tcpDelayServer where
  listenPort : Int
  upDelay : Int
  downDelay : Int
  randomizeDelay : Bool
  upstreamAddr : String
deriving DecidableEq, Repr

/-- One delay scaling of `tcpDelayServer.Run`:
`time.Duration(uint64(logNorm.Rand() * float64(uint64(d))))` — the
log-normal sample `r` multiplies the configured delay and the product
is truncated to an integer nanosecond count.  The sample is an exact
rational here; configured delays are non-negative durations. -/
def scaleDelay (r : ℚ) (d : Int) : Int := ⌊r * (d : ℚ)⌋

/-- The per-connection delay computation in `tcpDelayServer.Run`'s
accept loop:

    upDelay := s.upDelay
    downDelay := s.downDelay
    if s.randomizeDelay {
      upDelay = time.Duration(uint64(logNorm.Rand() * float64(uint64(upDelay))))
      downDelay = time.Duration(uint64(logNorm.Rand() * float64(uint64(downDelay))))
    }

`rng` is the stream of pending `logNorm.Rand()` draws; the result pairs
the session's delays with the stream left for later connections. -/
def acceptDelays (s : tcpDelayServer) (rng : List ℚ) : (Int × Int) × List ℚ :=
  if s.randomizeDelay then
    ((scaleDelay (rng.getD 0 1) s.upDelay, scaleDelay (rng.getD 1 1) s.downDelay),
     rng.drop 2)
  else ((s.upDelay, s.downDelay), rng)

/-- Handling of one accepted connection by `tcpDelayServer.Run`:
compute this session's delays, then spawn `session.Run`, which builds
the two legs from exactly those delays. -/
def serverHandleConn (s : tcpDelayServer) (rng : List ℚ) : (Pipe × Pipe) × List ℚ :=
  let r := acceptDelays s rng
  (sessionBuildPipes r.1.1 r.1.2, r.2)

/-- Destination oracle entries that report a successful write of a
positive number of bytes. -/
def okPos : WriteOutcome → Bool
  | .ok n => decide (0 < n)
  | _ => false

/-! ## Helper lemmas -/

theorem writeLoop_allOk (os : List WriteOutcome) (hall : os.all okPos = true)
    (rem : List Byte) :
    (writeLoop rem os).written = rem ∧ (writeLoop rem os).res = .completed ∧
    (writeLoop rem os).rest.all okPos = true := by
  induction os generalizing rem with
  | nil => simp [writeLoop]
  | cons o os ih =>
    rw [List.all_cons, Bool.and_eq_true] at hall
    obtain ⟨ho, hos⟩ := hall
    cases o with
    | eof => simp [okPos] at ho
    | fail c => simp [okPos] at ho
    | ok n =>
      have hn : 0 < n := by simpa [okPos] using ho
      by_cases hrem : rem.isEmpty
      · have : rem = [] := by simpa [List.isEmpty_iff] using hrem
        subst this
        simp [writeLoop, List.all_cons, ho, hos]
      · have h1 : ¬ n < 0 := by omega
        have h2 : ¬ n = 0 := by omega
        obtain ⟨hw, hres, hrest⟩ := ih hos (rem.drop n.toNat)
        simp only [writeLoop, hrem, Bool.false_eq_true, if_false, h1, h2, if_false]
        exact ⟨by rw [hw, List.take_append_drop], hres, hrest⟩

theorem writeRoutineGo_delivered_take (q : List delayedWrite) :
    ∀ (last : Nat) (os : List WriteOutcome),
    ∃ k, (writeRoutineGo last os q).delivered = q.take k ∧ k ≤ q.length := by
  induction q with
  | nil => intro last os; exact ⟨0, by simp [writeRoutineGo], by simp⟩
  | cons dw rest ih =>
    intro last os
    by_cases h : dw.readTime < last
    · exact ⟨0, by simp [writeRoutineGo, h], by simp⟩
    · rcases hr : (writeLoop dw.bbuf os).res with _ | _ | e
      · obtain ⟨k, hk, hkle⟩ := ih dw.readTime (writeLoop dw.bbuf os).rest
        exact ⟨k + 1, by simp [writeRoutineGo, h, hr, hk], by simp; omega⟩
      · obtain ⟨k, hk, hkle⟩ := ih dw.readTime (writeLoop dw.bbuf os).rest
        exact ⟨k + 1, by simp [writeRoutineGo, h, hr, hk], by simp; omega⟩
      · exact ⟨1, by simp [writeRoutineGo, h, hr], by simp⟩

theorem writeRoutineGo_delivered_le_chain (q : List delayedWrite) :
    ∀ (last : Nat) (os : List WriteOutcome),
    (∀ dw ∈ (writeRoutineGo last os q).delivered, last ≤ dw.readTime) ∧
    ((writeRoutineGo last os q).delivered.map (fun d => d.readTime)).Chain' (· ≤ ·) := by
  induction q with
  | nil => intro last os; simp [writeRoutineGo]
  | cons dw rest ih =>
    intro last os
    by_cases h : dw.readTime < last
    · simp [writeRoutineGo, h]
    · have hle : last ≤ dw.readTime := Nat.le_of_not_lt h
      rcases hr : (writeLoop dw.bbuf os).res with _ | _ | e
      · obtain ⟨ihmem, ihch⟩ := ih dw.readTime (writeLoop dw.bbuf os).rest
        simp only [writeRoutineGo, h, if_false, hr]
        constructor
        · intro x hx
          rcases List.mem_cons.1 hx with hx | hx
          · exact hx ▸ hle
          · exact le_trans hle (ihmem x hx)
        · rw [List.map_cons]
          refine List.chain'_cons'.2 ⟨?_, ihch⟩
          intro z hz
          obtain ⟨x, hxmem, hxz⟩ := List.mem_map.1 (List.mem_of_mem_head? hz)
          exact hxz ▸ ihmem x hxmem
      · obtain ⟨ihmem, ihch⟩ := ih dw.readTime (writeLoop dw.bbuf os).rest
        simp only [writeRoutineGo, h, if_false, hr]
        constructor
        · intro x hx
          rcases List.mem_cons.1 hx with hx | hx
          · exact hx ▸ hle
          · exact le_trans hle (ihmem x hx)
        · rw [List.map_cons]
          refine List.chain'_cons'.2 ⟨?_, ihch⟩
          intro z hz
          obtain ⟨x, hxmem, hxz⟩ := List.mem_map.1 (List.mem_of_mem_head? hz)
          exact hxz ▸ ihmem x hxmem
      · constructor
        · intro x hx
          simp only [writeRoutineGo, h, if_false, hr] at hx
          simp at hx
          exact hx ▸ hle
        · simp [writeRoutineGo, h, hr]

theorem chain_lt_of_le_nodup (l : List Nat) (hch : l.Chain' (· ≤ ·)) (hnd : l.Nodup) :
    l.Chain' (· < ·) := by
  induction l with
  | nil => simp
  | cons a l ih =>
    cases l with
    | nil => simp
    | cons b t =>
      rw [List.chain'_cons] at hch ⊢
      rw [List.nodup_cons] at hnd
      refine ⟨lt_of_le_of_ne hch.1 ?_, ih hch.2 hnd.2⟩
      intro hab
      exact hnd.1 (hab ▸ List.mem_cons_self b t)

theorem delayed_pipeline_general (S : List delayedWrite) (delay : Nat)
    (sched : List (Nat × Nat)) (os : List WriteOutcome) (wts : List Nat)
    (hidx : ∀ p ∈ sched, p.1 < S.length)
    (hnodup : (sched.map Prod.fst).Nodup)
    (htimer : ∀ p ∈ sched, (S.getD p.1 dwDefault).readTime + delay ≤ p.2)
    (hdeq : ∀ j, j < sched.length → (sched.getD j (0, 0)).2 ≤ wts.getD j 0)
    (hmono : (S.map (fun d => d.readTime)).Pairwise (· < ·)) :
    (∀ j, j < (writeRoutineGo 0 os (mkQueue S sched)).delivered.length →
      ((writeRoutineGo 0 os (mkQueue S sched)).delivered.getD j dwDefault).readTime + delay ≤
        wts.getD j 0) ∧
    (∀ dw ∈ (writeRoutineGo 0 os (mkQueue S sched)).delivered, dw ∈ S) ∧
    ((writeRoutineGo 0 os (mkQueue S sched)).delivered.map
      (fun d => d.readTime)).Chain' (· < ·) := by
  have hQlen : (mkQueue S sched).length = sched.length := by simp [mkQueue]
  obtain ⟨k, hk, hkle⟩ := writeRoutineGo_delivered_take (mkQueue S sched) 0 os
  have htake : ∀ j, j < (writeRoutineGo 0 os (mkQueue S sched)).delivered.length →
      j < k ∧ j < (mkQueue S sched).length := by
    intro j hj
    rw [hk, List.length_take] at hj
    exact ⟨Nat.lt_of_lt_of_le hj (Nat.min_le_left _ _),
      Nat.lt_of_lt_of_le hj (Nat.min_le_right _ _)⟩
  refine ⟨?_, ?_, ?_⟩
  · intro j hj
    obtain ⟨hjk, hjQ⟩ := htake j hj
    have hjs : j < sched.length := hQlen ▸ hjQ
    have h1 : (writeRoutineGo 0 os (mkQueue S sched)).delivered.getD j dwDefault =
        (mkQueue S sched).getD j dwDefault := by
      rw [hk]
      rw [List.getD_eq_getElem _ _ (by rw [List.length_take]; exact Nat.lt_min.2 ⟨hjk, hjQ⟩),
        List.getD_eq_getElem _ _ hjQ]
      simp
    have h2 : (mkQueue S sched).getD j dwDefault =
        S.getD (sched.getD j (0, 0)).1 dwDefault := by
      rw [List.getD_eq_getElem _ _ hjQ, List.getD_eq_getElem _ _ hjs]
      simp [mkQueue]
    have hmem : sched.getD j (0, 0) ∈ sched := by
      rw [List.getD_eq_getElem _ _ hjs]
      exact List.getElem_mem hjs
    have h3 := htimer _ hmem
    have h4 := hdeq j hjs
    rw [h1, h2]
    omega
  · intro dw hdw
    rw [hk] at hdw
    have hdwQ : dw ∈ mkQueue S sched := List.take_subset k _ hdw
    simp only [mkQueue, List.mem_map] at hdwQ
    obtain ⟨p, hpmem, hpe⟩ := hdwQ
    have hplen := hidx p hpmem
    rw [← hpe, List.getD_eq_getElem _ _ hplen]
    exact List.getElem_mem hplen
  · have hch := (writeRoutineGo_delivered_le_chain (mkQueue S sched) 0 os).2
    have hQmapnodup : ((mkQueue S sched).map (fun d => d.readTime)).Nodup := by
      simp only [mkQueue, List.map_map]
      refine List.Nodup.map_on ?_ (List.Nodup.of_map _ hnodup)
      intro x hx y hy hxy
      by_contra hne
      have hxy1 : x.1 ≠ y.1 := by
        intro h
        exact hne (List.inj_on_of_nodup_map hnodup hx hy h)
      have hxl := hidx x hx
      have hyl := hidx y hy
      have hpw := List.pairwise_iff_getElem.1 hmono
      simp only [Function.comp_apply] at hxy
      rw [List.getD_eq_getElem _ _ hxl, List.getD_eq_getElem _ _ hyl] at hxy
      rcases Nat.lt_or_ge x.1 y.1 with hlt | hge
      · have h5 := hpw x.1 y.1 (by simpa using hxl) (by simpa using hyl) hlt
        simp only [List.getElem_map] at h5
        exact (Nat.ne_of_lt h5) hxy
      · have hgt : y.1 < x.1 := Nat.lt_of_le_of_ne hge (Ne.symm hxy1)
        have h5 := hpw y.1 x.1 (by simpa using hyl) (by simpa using hxl) hgt
        simp only [List.getElem_map] at h5
        exact (Nat.ne_of_lt h5) hxy.symm
    have hdnodup : ((writeRoutineGo 0 os (mkQueue S sched)).delivered.map
        (fun d => d.readTime)).Nodup := by
      rw [hk, List.map_take]
      exact (List.take_sublist _ _).nodup hQmapnodup
    exact chain_lt_of_le_nodup _ hch hdnodup

/-! ## Claim theorems -/

/-- Claim C2: `session.Run` builds a `simplePipe` for a direction if
and only if that direction's configured delay is exactly zero, and a
`delayedPipe` carrying that delay otherwise; a zero delay never
produces a `delayedPipe`. -/
theorem session_zero_delay_leg_selection (u d : Int) :
    ((sessionBuildPipes u d).1 = .simplePipe .client .upstream ↔ u = 0) ∧
    ((sessionBuildPipes u d).2 = .simplePipe .upstream .client ↔ d = 0) ∧
    (u ≠ 0 → (sessionBuildPipes u d).1 = .delayedPipe .client .upstream u) ∧
    (d ≠ 0 → (sessionBuildPipes u d).2 = .delayedPipe .upstream .client d) := by
  by_cases hu : u = 0 <;> by_cases hd : d = 0 <;>
    simp [sessionBuildPipes, hu, hd]

/-- Witness for C2 at concrete delays 5 and 0: the up direction gets a
delayed pipe carrying 5, the down direction a simple pipe. -/
theorem session_zero_delay_leg_selection_witness :
    (sessionBuildPipes 5 0).1 = .delayedPipe .client .upstream 5 ∧
    (sessionBuildPipes 5 0).2 = .simplePipe .upstream .client :=
  ⟨(session_zero_delay_leg_selection 5 0).2.2.1 (by decide),
   (session_zero_delay_leg_selection 5 0).2.1.2 rfl⟩

/-- Claim C6: in a relay leg's read loop (both `simplePipe.Run` and
`delayedPipe.readRoutine`), a deadline-timeout read failure is not an
error and the loop continues re-checking cancellation; `io.EOF` from
the source terminates the leg with a `nil` error; any other read error
terminates the leg and is returned. -/
theorem readLoop_error_classification (evs : List ReadEv) (os : List WriteOutcome)
    (devs : List DReadEv) (c : Nat) :
    (simplePipeRun (.timeout :: evs) os = simplePipeRun evs os) ∧
    (simplePipeRun (.eof :: evs) os = ([], .srcClosed) ∧ exitError .srcClosed = none) ∧
    (simplePipeRun (.rerr c :: evs) os = ([], .readErr c) ∧
      exitError (.readErr c) = some (.ioError c)) ∧
    (readRoutineGo (.timeout :: devs) = readRoutineGo devs) ∧
    (readRoutineGo (.eof :: devs) = ([], none)) ∧
    (readRoutineGo (.rerr c :: devs) = ([], some (.ioError c))) :=
  ⟨rfl, ⟨rfl, rfl⟩, ⟨rfl, rfl⟩, rfl, rfl, rfl⟩

/-- Claim C7: in the partial-write loop shared by both relay legs, a
`Write` call that returns without error but reports a negative or zero
byte count aborts the leg with an error and writes nothing further;
a positive count `n` advances the write cursor by exactly `n` (the
first `n` remaining bytes go out and the loop resumes on the rest). -/
theorem write_degeneracy_aborts (rem : List Byte) (n : Int) (os : List WriteOutcome)
    (hne : rem ≠ []) :
    (n < 0 → writeLoop rem (.ok n :: os) = ⟨[], os, .failed .negativeBytes⟩) ∧
    (n = 0 → writeLoop rem (.ok n :: os) = ⟨[], os, .failed .zeroBytes⟩) ∧
    (0 < n → writeLoop rem (.ok n :: os) =
      ⟨rem.take n.toNat ++ (writeLoop (rem.drop n.toNat) os).written,
       (writeLoop (rem.drop n.toNat) os).rest,
       (writeLoop (rem.drop n.toNat) os).res⟩) := by
  have hrem : rem.isEmpty = false := by
    cases rem with
    | nil => exact absurd rfl hne
    | cons a l => rfl
  refine ⟨fun h => ?_, fun h => ?_, fun h => ?_⟩
  · simp [writeLoop, hrem, h]
  · simp [writeLoop, hrem, h]
  · have h1 : ¬ n < 0 := by omega
    have h2 : ¬ n = 0 := by omega
    simp [writeLoop, hrem, h1, h2]

/-- Witness for C7 on the chunk `[7, 8, 9]`: a zero-byte write aborts
with the zero-bytes error, and a 2-byte write advances the cursor past
exactly the first two bytes. -/
theorem write_degeneracy_aborts_witness :
    writeLoop [7, 8, 9] [.ok 0] = ⟨[], [], .failed .zeroBytes⟩ ∧
    writeLoop [7, 8, 9] [.ok 2] = ⟨[7, 8] ++ [9], [], .completed⟩ :=
  ⟨(write_degeneracy_aborts [7, 8, 9] 0 [] (by decide)).2.1 rfl,
   (write_degeneracy_aborts [7, 8, 9] 2 [] (by decide)).2.2 (by decide)⟩

/-- Claim C1: when `delayedPipe.writeRoutine` receives a chunk whose
`readTime` is strictly earlier than the recorded `lastReadTime`, it
returns the out-of-order error immediately and writes nothing of that
chunk; otherwise it records the chunk's `readTime` as the new
`lastReadTime` and writes the chunk; consequently the `readTime`s of
delivered chunks form a non-decreasing sequence over any run. -/
theorem delayedLeg_ordering_check (last : Nat) (os : List WriteOutcome)
    (dw : delayedWrite) (rest q : List delayedWrite) :
    (dw.readTime < last →
      writeRoutineGo last os (dw :: rest) =
        ⟨[], [], some (.outOfOrder dw.readTime last)⟩) ∧
    (last ≤ dw.readTime → os.all okPos = true →
      writeRoutineGo last os (dw :: rest) =
        ⟨dw :: (writeRoutineGo dw.readTime (writeLoop dw.bbuf os).rest rest).delivered,
         dw.bbuf ++ (writeRoutineGo dw.readTime (writeLoop dw.bbuf os).rest rest).written,
         (writeRoutineGo dw.readTime (writeLoop dw.bbuf os).rest rest).err⟩) ∧
    ((writeRoutineGo last os q).delivered.map (fun d => d.readTime)).Chain' (· ≤ ·) := by
  refine ⟨fun h => by simp [writeRoutineGo, h], fun h hall => ?_,
    (writeRoutineGo_delivered_le_chain q last os).2⟩
  have hnl : ¬ dw.readTime < last := Nat.not_lt.2 h
  obtain ⟨hw, hres, _⟩ := writeLoop_allOk os hall dw.bbuf
  simp [writeRoutineGo, hnl, hres, hw]

/-- Witness for C1: a chunk read at time 3 arriving when
`lastReadTime` is 5 aborts with the out-of-order error and nothing is
written; the same chunk arriving when `lastReadTime` is 0 is delivered
and its payload written. -/
theorem delayedLeg_ordering_check_witness :
    writeRoutineGo 5 [] [⟨3, [9]⟩] = ⟨[], [], some (.outOfOrder 3 5)⟩ ∧
    writeRoutineGo 0 [] [⟨3, [9]⟩] =
      ⟨⟨3, [9]⟩ :: (writeRoutineGo 3 (writeLoop [9] []).rest []).delivered,
       [9] ++ (writeRoutineGo 3 (writeLoop [9] []).rest []).written,
       (writeRoutineGo 3 (writeLoop [9] []).rest []).err⟩ :=
  ⟨(delayedLeg_ordering_check 5 [] ⟨3, [9]⟩ [] []).1 (by decide),
   (delayedLeg_ordering_check 0 [] ⟨3, [9]⟩ [] []).2.1 (by decide) (by decide)⟩

/-- Claim C3: while the destination accepts every write with a
positive byte count (possibly partially, the cursor resuming each
time), `simplePipe.Run` delivers to the destination exactly the
concatenation, in order, of the chunks read from the source before the
leg terminated — no framing, parsing, or transformation. -/
theorem simplePipe_byte_fidelity (evs : List ReadEv) : ∀ os : List WriteOutcome,
    os.all okPos = true →
    (simplePipeRun evs os).1 = (chunksBeforeExit evs).flatten := by
  induction evs with
  | nil => intro os _; simp [simplePipeRun, chunksBeforeExit]
  | cons ev evs ih =>
    intro os hok
    cases ev with
    | cancelled => simp [simplePipeRun, chunksBeforeExit]
    | timeout => simpa [simplePipeRun, chunksBeforeExit] using ih os hok
    | eof => simp [simplePipeRun, chunksBeforeExit]
    | rerr c => simp [simplePipeRun, chunksBeforeExit]
    | data bs =>
      obtain ⟨hw, hres, hrest⟩ := writeLoop_allOk os hok bs
      simp [simplePipeRun, chunksBeforeExit, hres, hw, ih _ hrest]

/-- Witness for C3: two chunks relayed through a destination that
splits the first chunk into partial writes of 2 and 1 bytes come out
identical and in order. -/
theorem simplePipe_byte_fidelity_witness :
    (simplePipeRun [.data [1, 2, 3], .timeout, .data [4], .eof] [.ok 2, .ok 1]).1 =
      List.flatten [[1, 2, 3], [4]] :=
  simplePipe_byte_fidelity [.data [1, 2, 3], .timeout, .data [4], .eof]
    [.ok 2, .ok 1] (by decide)

/-- Claim C5 counterexample: with the up leg recording its error
first (`.upThenDown`) — error 1 from the up leg, then error 2 from the
down leg — `session.Run` returns error 2, the error observed last, not
the first non-nil error observed (error 1).  The claim that the first
non-nil error is returned is false. -/
theorem session_first_error_counterexample :
    sessionRunErr .upThenDown (some (.ioError 1)) (some (.ioError 2)) =
      some (.ioError 2) ∧
    sessionRunErr .upThenDown (some (.ioError 1)) (some (.ioError 2)) ≠
      some (.ioError 1) := by
  decide

/-- Claim C5 (amended): `session.Run` returns nil iff both legs exit
cleanly; if exactly one leg fails its error is returned; if both fail,
exactly one error is surfaced — the one recorded last (by the leg
whose goroutine ran its error assignment last), not the first. -/
theorem session_error_surfacing (ord : LegOrder) (errUp errDown : Option GoError) :
    (sessionRunErr ord errUp errDown = none ↔ errUp = none ∧ errDown = none) ∧
    (errDown = none → sessionRunErr ord errUp errDown = errUp) ∧
    (errUp = none → sessionRunErr ord errUp errDown = errDown) ∧
    (errUp ≠ none → errDown ≠ none →
      sessionRunErr ord errUp errDown =
        (match ord with | .upThenDown => errDown | .downThenUp => errUp)) := by
  cases ord <;> cases errUp <;> cases errDown <;> simp [sessionRunErr, recordErr]

/-- Witness for C5: when both legs fail and the down leg's assignment
runs first, the up leg's error is surfaced; when only the down leg
fails, its error is surfaced. -/
theorem session_error_surfacing_witness :
    sessionRunErr .downThenUp (some (.ioError 1)) (some (.ioError 2)) =
      some (.ioError 1) ∧
    sessionRunErr .upThenDown none (some (.ioError 2)) = some (.ioError 2) :=
  ⟨(session_error_surfacing .downThenUp (some (.ioError 1))
      (some (.ioError 2))).2.2.2 (by decide) (by decide),
   (session_error_surfacing .upThenDown none (some (.ioError 2))).2.2.1 rfl⟩

/-- Claim C9: if the destination reports `io.EOF` partway through a
chunk, both relay legs abandon the rest of that chunk without
reporting an error and continue their outer loop on subsequent reads
(for `simplePipe.Run`) or queued chunks (for
`delayedPipe.writeRoutine`). -/
theorem dest_eof_skips_chunk (bs : List Byte) (evs : List ReadEv)
    (os : List WriteOutcome) (dw : delayedWrite) (rest : List delayedWrite)
    (last : Nat)
    (hs : (writeLoop bs os).res = .closedByDest)
    (hd : (writeLoop dw.bbuf os).res = .closedByDest)
    (hord : last ≤ dw.readTime) :
    simplePipeRun (.data bs :: evs) os =
      ((writeLoop bs os).written ++ (simplePipeRun evs (writeLoop bs os).rest).1,
       (simplePipeRun evs (writeLoop bs os).rest).2) ∧
    writeRoutineGo last os (dw :: rest) =
      ⟨dw :: (writeRoutineGo dw.readTime (writeLoop dw.bbuf os).rest rest).delivered,
       (writeLoop dw.bbuf os).written ++
         (writeRoutineGo dw.readTime (writeLoop dw.bbuf os).rest rest).written,
       (writeRoutineGo dw.readTime (writeLoop dw.bbuf os).rest rest).err⟩ := by
  have hnl : ¬ dw.readTime < last := Nat.not_lt.2 hord
  constructor
  · simp [simplePipeRun, hs]
  · simp [writeRoutineGo, hnl, hd]

/-- Witness for C9: the destination accepts one byte of `[1, 2]` and
then reports EOF; the leg drops the remaining byte, keeps running, and
delivers the next chunk `[9]` in full with no error. -/
theorem dest_eof_skips_chunk_witness :
    simplePipeRun [.data [1, 2], .eof] [.ok 1, .eof] = ([1], .srcClosed) ∧
    writeRoutineGo 0 [.ok 1, .eof] [⟨2, [1, 2]⟩, ⟨5, [9]⟩] =
      ⟨[⟨2, [1, 2]⟩, ⟨5, [9]⟩], [1, 9], none⟩ := by
  have h := dest_eof_skips_chunk [1, 2] [.eof] [.ok 1, .eof] ⟨2, [1, 2]⟩
    [⟨5, [9]⟩] 0 (by decide) (by decide) (by decide)
  refine ⟨?_, ?_⟩
  · rw [h.1]; decide
  · rw [h.2]; decide

/-- Claim C8: per accepted connection, randomization enabled draws one
independent sample per direction (the first two pending draws), exactly
once at accept time, each scaling its configured delay; a unit sample
(the log-normal median, since μ = 0) reproduces the configured delay
exactly; nonzero delays are carried unchanged into the session's legs,
fixed for the session's lifetime; with randomization disabled the
configured static values pass through untouched and no draw is
consumed. -/
theorem server_delay_randomization (s : tcpDelayServer) (rng : List ℚ) :
    (s.randomizeDelay = false → acceptDelays s rng = ((s.upDelay, s.downDelay), rng)) ∧
    (s.randomizeDelay = true →
      acceptDelays s rng =
        ((scaleDelay (rng.getD 0 1) s.upDelay, scaleDelay (rng.getD 1 1) s.downDelay),
         rng.drop 2)) ∧
    (∀ d : Int, scaleDelay 1 d = d) ∧
    (∀ u d : Int, u ≠ 0 → d ≠ 0 →
      sessionBuildPipes u d =
        (.delayedPipe .client .upstream u, .delayedPipe .upstream .client d)) := by
  refine ⟨fun h => by simp [acceptDelays, h], fun h => by simp [acceptDelays, h],
    fun d => by simp [scaleDelay], fun u d hu hd => by simp [sessionBuildPipes, hu, hd]⟩

/-- Witness for C8: a server with delays 4 and 6 under randomization
consumes exactly the two pending draws, and the same server without
randomization passes 4 and 6 through unchanged. -/
theorem server_delay_randomization_witness :
    acceptDelays ⟨9201, 4, 6, true, "localhost:9401"⟩ [(3 : ℚ) / 2, 2] =
      ((scaleDelay ((3 : ℚ) / 2) 4, scaleDelay 2 6), []) ∧
    acceptDelays ⟨9201, 4, 6, false, "localhost:9401"⟩ [] = ((4, 6), []) :=
  ⟨(server_delay_randomization ⟨9201, 4, 6, true, "localhost:9401"⟩
      [(3 : ℚ) / 2, 2]).2.1 rfl,
   (server_delay_randomization ⟨9201, 4, 6, false, "localhost:9401"⟩ []).1 rfl⟩

/-- Claim C10: with randomization enabled, a direction whose configured
delay is exactly zero still computes a zero per-connection delay (the
sample scales the configured value multiplicatively), so that direction
resolves to the passthrough leg. -/
theorem randomized_zero_delay_passthrough (s : tcpDelayServer) (rng : List ℚ)
    (hr : s.randomizeDelay = true) :
    (s.upDelay = 0 →
      (acceptDelays s rng).1.1 = 0 ∧
      (serverHandleConn s rng).1.1 = .simplePipe .client .upstream) ∧
    (s.downDelay = 0 →
      (acceptDelays s rng).1.2 = 0 ∧
      (serverHandleConn s rng).1.2 = .simplePipe .upstream .client) := by
  constructor <;> intro h <;>
    simp [acceptDelays, serverHandleConn, sessionBuildPipes, scaleDelay, hr, h]

/-- Claim C4: for a `delayedPipe` with delay `D`, each chunk's
scheduling goroutine enqueues it only once its `D`-duration timer,
started at or after the chunk's `readTime` capture, has elapsed
(hypothesis `htimer`, the Go timer semantics), and the write happens
at or after dequeue (hypothesis `hdeq`); hence every delivered chunk
is written no earlier than `readTime + D`.  With `readTime` a strict
monotonic capture instant across reads (`hmono`), delivered chunks are
exactly chunks read by `readRoutine` and appear in strictly increasing
`readTime` order, i.e. in the relative order they were read — any
schedule that would deliver them otherwise aborts at the ordering
check before writing.  The channel arrival order `sched` is
adversarial: any enqueue interleaving of the per-chunk goroutines. -/
theorem delayedLeg_delay_lower_bound_and_order (devs : List DReadEv) (delay : Nat)
    (sched : List (Nat × Nat)) (os : List WriteOutcome) (wts : List Nat)
    (_hD : 0 < delay)
    (hidx : ∀ p ∈ sched, p.1 < (readRoutineGo devs).1.length)
    (hnodup : (sched.map Prod.fst).Nodup)
    (htimer : ∀ p ∈ sched,
      ((readRoutineGo devs).1.getD p.1 dwDefault).readTime + delay ≤ p.2)
    (hdeq : ∀ j, j < sched.length → (sched.getD j (0, 0)).2 ≤ wts.getD j 0)
    (hmono : ((readRoutineGo devs).1.map (fun d => d.readTime)).Pairwise (· < ·)) :
    (∀ j, j < (writeRoutineGo 0 os
        (mkQueue (readRoutineGo devs).1 sched)).delivered.length →
      ((writeRoutineGo 0 os (mkQueue (readRoutineGo devs).1 sched)).delivered.getD j
          dwDefault).readTime + delay ≤ wts.getD j 0) ∧
    (∀ dw ∈ (writeRoutineGo 0 os (mkQueue (readRoutineGo devs).1 sched)).delivered,
      dw ∈ (readRoutineGo devs).1) ∧
    ((writeRoutineGo 0 os (mkQueue (readRoutineGo devs).1 sched)).delivered.map
      (fun d => d.readTime)).Chain' (· < ·) :=
  delayed_pipeline_general (readRoutineGo devs).1 delay sched os wts
    hidx hnodup htimer hdeq hmono

/-- Witness for C4: two chunks read at times 10 and 20 with delay 5,
enqueued at 15 and 25 and written at 16 and 26, satisfy the lower
bound and are delivered in read order. -/
theorem delayedLeg_delay_lower_bound_and_order_witness :
    (∀ j, j < (writeRoutineGo 0 []
        (mkQueue (readRoutineGo [.data 10 [1], .data 20 [2], .eof]).1
          [(0, 15), (1, 25)])).delivered.length →
      ((writeRoutineGo 0 []
          (mkQueue (readRoutineGo [.data 10 [1], .data 20 [2], .eof]).1
            [(0, 15), (1, 25)])).delivered.getD j dwDefault).readTime + 5 ≤
        [16, 26].getD j 0) ∧
    (∀ dw ∈ (writeRoutineGo 0 []
        (mkQueue (readRoutineGo [.data 10 [1], .data 20 [2], .eof]).1
          [(0, 15), (1, 25)])).delivered,
      dw ∈ (readRoutineGo [.data 10 [1], .data 20 [2], .eof]).1) ∧
    ((writeRoutineGo 0 []
        (mkQueue (readRoutineGo [.data 10 [1], .data 20 [2], .eof]).1
          [(0, 15), (1, 25)])).delivered.map
      (fun d => d.readTime)).Chain' (· < ·) :=
  delayedLeg_delay_lower_bound_and_order [.data 10 [1], .data 20 [2], .eof] 5
    [(0, 15), (1, 25)] [] [16, 26] (by decide) (by decide) (by decide)
    (by decide) (by decide) (by decide)

/-- Witness for C10: configured up delay 0 under randomization with a
non-trivial sample 5/3 still yields delay 0 and a simple up pipe. -/
theorem randomized_zero_delay_passthrough_witness :
    (acceptDelays ⟨9201, 0, 7, true, "up"⟩ [(5 : ℚ) / 3]).1.1 = 0 ∧
    (serverHandleConn ⟨9201, 0, 7, true, "up"⟩ [(5 : ℚ) / 3]).1.1 =
      .simplePipe .client .upstream :=
  (randomized_zero_delay_passthrough ⟨9201, 0, 7, true, "up"⟩ [(5 : ℚ) / 3] rfl).1 rfl
